import Mathlib

/-!
# Verification of the recent-domains tracker of `src/newtab.js`

This file gives a shallow embedding of the LRU recent-domains cache of the
new-tab page: the domain extractor (`extractDomain`), the click upsert
(`addToRecentDomains`), the persisted-cache loader (`getRecentDomains`), and
the history importer (`initRecentDomainsFromHistory`, split here into the
reduction `reduceHistory`, the descending sort `sortDesc`, and the merge
`mergeExternal`).  JavaScript machine details that matter are made explicit:
timestamps are naturals (milliseconds), JS falsiness of the empty string is an
explicit test, and the browser builtins (`new URL`, `JSON.parse`) that the
source calls but does not define are modelled from the specification text.
-/

namespace NewTab

/-- Capacity bound of the cache (`MAX_RECENT_DOMAINS = 5` in the source). -/
def MAX_RECENT_DOMAINS : Nat := 5

/-- One cache entry, `{domain, url, timestamp}` in the source. -/
structure DomainRecord where
  domain : String
  url : String
  timestamp : Nat
deriving DecidableEq

/-- One raw browsing-history entry as consumed by the importer: the source
reads `item.url` and `item.lastVisitTime`, the latter possibly absent. -/
structure HistoryItem where
  url : String
  lastVisitTime : Option Nat
deriving DecidableEq

/-- Lower-casing of a string, character by character (ASCII `A`–`Z`). -/
def lowerStr (s : String) : String := ⟨s.data.map Char.toLower⟩

/-- Split a character list at the first occurrence of the separator `://`:
the characters before it and the characters after it, or `none` when the
separator does not occur. -/
def breakOnScheme : List Char → Option (List Char × List Char)
  | [] => none
  | c :: rest =>
    if [':', '/', '/'].isPrefixOf (c :: rest) then some ([], rest.drop 2)
    else
      match breakOnScheme rest with
      | none => none
      | some (pre, post) => some (c :: pre, post)

/-- The segment of a character list after its last `@`, the whole list when
`@` does not occur (removal of the user-info part of an authority). -/
def afterLastAt (l : List Char) : List Char :=
  (l.reverse.takeWhile (fun c => c != '@')).reverse

/-- Modelled from the spec: the browser `new URL(url)` constructor is a
platform builtin absent from the repository.  This model accepts a string
containing a nonempty scheme and the separator `://`, and yields the
authority's host: the remainder up to the first `/`, `?` or `#`, with any
user-info part before a final `@` and any `:port` suffix removed.  A string
with no `://` separator (such as `not a url`) fails to parse. -/
def rawHost (url : String) : Option String :=
  match breakOnScheme url.data with
  | none => none
  | some (scheme, post) =>
    if scheme = [] then none
    else
      let auth := post.takeWhile (fun c => !(c == '/' || c == '?' || c == '#'))
      some ⟨(afterLastAt auth).takeWhile (fun c => c != ':')⟩

/-- Modelled from the spec: the `hostname` getter of the URL builtin reports
the host lower-cased. -/
def urlHostname (url : String) : Option String :=
  (rawHost url).map lowerStr

/-- The single-occurrence anchored replacement `hostname.replace(/^www\./, '')`
of the source: strips one leading `www.` when present. -/
def stripWww (h : String) : String :=
  if h.data.take 4 = ['w', 'w', 'w', '.'] then ⟨h.data.drop 4⟩ else h

/-- `extractDomain` (src/newtab.js:341-348): parse the URL, return its
hostname with a single leading `www.` removed; `null` (here `none`) when the
URL does not parse. -/
def extractDomain (url : String) : Option String :=
  (urlHostname url).map stripWww

/-- Substring test, the model of JS `String.prototype.includes`. -/
def containsSub (s pat : String) : Bool :=
  s.data.tails.any (fun t => pat.data.isPrefixOf t)

/-- The internal-origin exclusion of the source (src/newtab.js:371 and 497):
domains containing `chrome` or `newtab`, or equal to `localhost`, are
skipped. -/
def excludedDomain (d : String) : Bool :=
  containsSub d "chrome" || containsSub d "newtab" || d == "localhost"

/-- The shared guard sequence of `addToRecentDomains` (lines 367-373) and the
history loop (lines 493-499): extract the domain; a `null` result or the empty
string is falsy and aborts (`if (!domain)`), and an excluded domain aborts. -/
def admitDomain (url : String) : Option String :=
  match extractDomain url with
  | none => none
  | some d => if d = "" then none else if excludedDomain d then none else some d

/-- The mutation computed by `addToRecentDomains` (src/newtab.js:366-392),
separated from its persistence effect: `none` means the function returned
early (nothing recomputed, nothing saved); `some l` means `l` is the new
sequence passed to `saveRecentDomains`. -/
def upsertResult (url : String) (now : Nat) (domains : List DomainRecord) :
    Option (List DomainRecord) :=
  match admitDomain url with
  | none => none
  | some domain =>
    some ((⟨domain, "https://" ++ domain, now⟩ ::
      domains.filter (fun d => d.domain != domain)).take MAX_RECENT_DOMAINS)

/-- The cache state after `addToRecentDomains(url)` runs at time `now` on
state `domains`. -/
def addToRecentDomains (url : String) (now : Nat) (domains : List DomainRecord) :
    List DomainRecord :=
  (upsertResult url now domains).getD domains

/-- The cache state reached from the empty cache by a sequence of upsert
calls, each a pair of a clicked URL and a click time. -/
def applyUpserts (ops : List (String × Nat)) : List DomainRecord :=
  ops.foldl (fun cache op => addToRecentDomains op.1 op.2 cache) []

/-- The domains currently present in a cache state, in order
(`cached.map(d => d.domain)` in the source). -/
def domainsOf (cache : List DomainRecord) : List String :=
  cache.map (fun r => r.domain)

/-- Membership test in the precomputed domain set
(`cachedDomains.has(histItem.domain)` in the source). -/
def hasDomain (ds : List String) (d : String) : Bool :=
  ds.any (fun x => x == d)

/-- One iteration of the merge loop of `initRecentDomainsFromHistory`
(src/newtab.js:523-527): append the candidate iff its domain is absent from
the precomputed cached-domain set and the running length is under capacity. -/
def mergeStep (cachedDomains : List String) (merged : List DomainRecord)
    (h : DomainRecord) : List DomainRecord :=
  if !hasDomain cachedDomains h.domain && merged.length < MAX_RECENT_DOMAINS
  then merged ++ [h] else merged

/-- The merge of `initRecentDomainsFromHistory` (src/newtab.js:519-530):
starting from the live cache, fold the candidates through `mergeStep`; the
absence test is against the domain set of the cache as it was before the
loop. -/
def mergeExternal (cached cands : List DomainRecord) : List DomainRecord :=
  cands.foldl (mergeStep (domainsOf cached)) cached

/-- `item.lastVisitTime || 0` of the source: an absent visit time counts
as `0`. -/
def visitTime (it : HistoryItem) : Nat :=
  it.lastVisitTime.getD 0

/-- One iteration of the reduction loop of `initRecentDomainsFromHistory`
(src/newtab.js:492-512) on the insertion-ordered domain map, here an
association list keyed by `domain`: skip inadmissible URLs; insert a fresh
record at the tail for a new domain; overwrite in place when this visit is
strictly more recent than the stored one. -/
def updateMap (m : List DomainRecord) (it : HistoryItem) : List DomainRecord :=
  match admitDomain it.url with
  | none => m
  | some d =>
    match m.find? (fun r => r.domain == d) with
    | none => m ++ [⟨d, "https://" ++ d, visitTime it⟩]
    | some ex =>
      if ex.timestamp < visitTime it
      then m.map (fun r => if r.domain == d then ⟨d, "https://" ++ d, visitTime it⟩ else r)
      else m

/-- The reduction of the raw history entries to one record per admissible
domain, in first-seen insertion order (the `domainMap` of the source). -/
def reduceHistory (items : List HistoryItem) : List DomainRecord :=
  items.foldl updateMap []

/-- Stable insertion of a record into a timestamp-descending list: the record
goes before the first strictly older entry, after every entry at least as
recent. -/
def insertDesc (x : DomainRecord) : List DomainRecord → List DomainRecord
  | [] => [x]
  | y :: ys => if y.timestamp < x.timestamp then x :: y :: ys else y :: insertDesc x ys

/-- The stable timestamp-descending sort applied to the reduced map
(`.sort((a, b) => b.timestamp - a.timestamp)` in the source). -/
def sortDesc (l : List DomainRecord) : List DomainRecord :=
  l.foldl (fun acc x => insertDesc x acc) []

/-- The ordered candidate set the importer passes to the merge: the reduced
map, sorted by timestamp descending, truncated to capacity
(`.slice(0, MAX_RECENT_DOMAINS)`). -/
def historyCandidates (items : List HistoryItem) : List DomainRecord :=
  (sortDesc (reduceHistory items)).take MAX_RECENT_DOMAINS

/-- The full cache effect of `initRecentDomainsFromHistory`
(src/newtab.js:462-535): skip when the cache is already at capacity or the
query came back empty, otherwise merge the reduced, sorted, truncated
candidates beneath the live cache. -/
def importFromHistory (items : List HistoryItem) (cached : List DomainRecord) :
    List DomainRecord :=
  if MAX_RECENT_DOMAINS ≤ cached.length then cached
  else if items.isEmpty then cached
  else mergeExternal cached (historyCandidates items)

/-- Model of a parsed JSON value, for the persisted cache slot. -/
inductive Json where
  | jnull
  | jbool (b : Bool)
  | jnum (n : Int)
  | jstr (s : String)
  | jarr (elems : List Json)
  | jobj (fields : List (String × Json))

/-- Modelled from the spec: the `JSON.parse` builtin is a platform function
absent from the repository, so the persisted recent-domains slot is
represented by its parse outcome: absent (`localStorage.getItem` returned
`null`), a string `JSON.parse` throws on, or a string parsing to a JSON
value. -/
inductive StoredSlot where
  | absent
  | unparsable
  | parsed (j : Json)

/-- `getRecentDomains` (src/newtab.js:321-328): an absent slot yields `[]`,
a parse failure is caught and yields `[]`, and any successfully parsed JSON
value is returned as-is, without shape validation. -/
def getRecentDomains : StoredSlot → Json
  | .absent => .jarr []
  | .unparsable => .jarr []
  | .parsed j => j

/-- A JSON value that is a valid serialization of one `DomainRecord`, in the
field order `JSON.stringify` emits for the cache. -/
def isRecordJson : Json → Bool
  | .jobj [("domain", .jstr _), ("url", .jstr _), ("timestamp", .jnum _)] => true
  | _ => false

/-- A JSON value that is a valid serialized sequence of `DomainRecord`. -/
def isRecordSeqJson : Json → Bool
  | .jarr l => l.all isRecordJson
  | _ => false

/-- A cache mutation: a user click (upsert) or a one-shot history import. -/
inductive CacheOp where
  | click (url : String) (now : Nat)
  | importHist (items : List HistoryItem)
deriving DecidableEq

/-- Apply one mutation to a cache state. -/
def applyOp (cache : List DomainRecord) : CacheOp → List DomainRecord
  | .click url now => addToRecentDomains url now cache
  | .importHist items => importFromHistory items cache

/-- The cache state reached from the empty cache by a sequence of clicks and
imports. -/
def applyOps (ops : List CacheOp) : List DomainRecord :=
  ops.foldl applyOp []

/-! ## Basic lemmas about the upsert -/

theorem upsertResult_eq_some {url : String} {d : String} (now : Nat)
    (domains : List DomainRecord) (h : admitDomain url = some d) :
    upsertResult url now domains =
      some ((⟨d, "https://" ++ d, now⟩ ::
        domains.filter (fun r => r.domain != d)).take MAX_RECENT_DOMAINS) := by
  simp [upsertResult, h]

theorem addToRecentDomains_eq_of_accept {url : String} {d : String} (now : Nat)
    (domains : List DomainRecord) (h : admitDomain url = some d) :
    addToRecentDomains url now domains =
      (⟨d, "https://" ++ d, now⟩ ::
        domains.filter (fun r => r.domain != d)).take MAX_RECENT_DOMAINS := by
  simp [addToRecentDomains, upsertResult_eq_some now domains h]

theorem addToRecentDomains_eq_of_reject {url : String} (now : Nat)
    (domains : List DomainRecord) (h : admitDomain url = none) :
    addToRecentDomains url now domains = domains := by
  simp [addToRecentDomains, upsertResult, h]

theorem not_mem_domainsOf_filter (cache : List DomainRecord) (d : String) :
    d ∉ domainsOf (cache.filter (fun r => r.domain != d)) := by
  simp only [domainsOf, List.mem_map, List.mem_filter, bne_iff_ne, ne_eq]
  rintro ⟨r, ⟨_, hne⟩, hd⟩
  exact hne hd

theorem domainsOf_filter_nodup (cache : List DomainRecord) (p : DomainRecord → Bool)
    (h : (domainsOf cache).Nodup) : (domainsOf (cache.filter p)).Nodup := by
  simp only [domainsOf] at h ⊢
  exact ((cache.filter_sublist).map (fun r => r.domain)).nodup h

/-- The well-formedness invariant of the cache: under capacity and one record
per domain. -/
def CacheInv (cache : List DomainRecord) : Prop :=
  cache.length ≤ MAX_RECENT_DOMAINS ∧ (domainsOf cache).Nodup

theorem cacheInv_nil : CacheInv [] := by
  constructor <;> simp [domainsOf, MAX_RECENT_DOMAINS]

theorem cacheInv_upsert (url : String) (now : Nat) (cache : List DomainRecord)
    (h : CacheInv cache) : CacheInv (addToRecentDomains url now cache) := by
  cases hadm : admitDomain url with
  | none => rwa [addToRecentDomains_eq_of_reject now cache hadm]
  | some d =>
    rw [addToRecentDomains_eq_of_accept now cache hadm]
    constructor
    · simp only [List.length_take]
      exact Nat.min_le_left MAX_RECENT_DOMAINS _
    · have hnodup : (domainsOf
          ((⟨d, "https://" ++ d, now⟩ : DomainRecord) ::
            cache.filter (fun r => r.domain != d))).Nodup := by
        simp only [domainsOf, List.map_cons, List.nodup_cons]
        exact ⟨not_mem_domainsOf_filter cache d, domainsOf_filter_nodup cache _ h.2⟩
      simp only [domainsOf] at hnodup ⊢
      exact ((List.take_sublist _ _).map _).nodup hnodup

theorem cacheInv_foldl_upserts (ops : List (String × Nat)) :
    ∀ cache : List DomainRecord, CacheInv cache →
      CacheInv (ops.foldl (fun c op => addToRecentDomains op.1 op.2 c) cache) := by
  induction ops with
  | nil => intro cache h; exact h
  | cons op rest ih =>
    intro cache h
    exact ih _ (cacheInv_upsert op.1 op.2 cache h)

/-! ## Basic lemmas about the merge -/

theorem hasDomain_iff (ds : List String) (d : String) :
    hasDomain ds d = true ↔ d ∈ ds := by
  simp only [hasDomain, List.any_eq_true, beq_iff_eq]
  constructor
  · rintro ⟨x, hx, rfl⟩; exact hx
  · intro hd; exact ⟨d, hd, rfl⟩

theorem mergeStep_eq_append {cd : List String} {acc : List DomainRecord}
    {c : DomainRecord}
    (h : (!hasDomain cd c.domain && decide (acc.length < MAX_RECENT_DOMAINS)) = true) :
    mergeStep cd acc c = acc ++ [c] := by
  simp only [mergeStep, h, if_true]

theorem mergeStep_eq_skip {cd : List String} {acc : List DomainRecord}
    {c : DomainRecord}
    (h : ¬(!hasDomain cd c.domain && decide (acc.length < MAX_RECENT_DOMAINS)) = true) :
    mergeStep cd acc c = acc := by
  simp [mergeStep, h]

theorem mergeFold_spec (cd : List String) (cands : List DomainRecord) :
    ∀ acc : List DomainRecord, ∃ s : List DomainRecord,
      cands.foldl (mergeStep cd) acc = acc ++ s ∧
      ∀ r ∈ s, r ∈ cands ∧ hasDomain cd r.domain = false := by
  induction cands with
  | nil => intro acc; exact ⟨[], by simp, by simp⟩
  | cons c t ih =>
    intro acc
    simp only [List.foldl_cons]
    by_cases hc : (!hasDomain cd c.domain && decide (acc.length < MAX_RECENT_DOMAINS)) = true
    · rw [mergeStep_eq_append hc]
      obtain ⟨s, hs, hmem⟩ := ih (acc ++ [c])
      refine ⟨c :: s, by simpa using hs, ?_⟩
      intro r hr
      rcases List.mem_cons.mp hr with rfl | hr
      · refine ⟨List.mem_cons_self _ _, ?_⟩
        have := (Bool.and_eq_true _ _).mp hc
        simpa using this.1
      · exact ⟨List.mem_cons_of_mem _ (hmem r hr).1, (hmem r hr).2⟩
    · rw [mergeStep_eq_skip hc]
      obtain ⟨s, hs, hmem⟩ := ih acc
      exact ⟨s, hs, fun r hr => ⟨List.mem_cons_of_mem _ (hmem r hr).1, (hmem r hr).2⟩⟩

theorem mergeFold_of_full (cd : List String) (cands : List DomainRecord) :
    ∀ acc : List DomainRecord, MAX_RECENT_DOMAINS ≤ acc.length →
      cands.foldl (mergeStep cd) acc = acc := by
  induction cands with
  | nil => intro acc _; rfl
  | cons c t ih =>
    intro acc hacc
    have hc : ¬(!hasDomain cd c.domain && decide (acc.length < MAX_RECENT_DOMAINS)) = true := by
      simp only [Bool.and_eq_true, decide_eq_true_eq]
      rintro ⟨-, hlt⟩
      omega
    simp only [List.foldl_cons, mergeStep_eq_skip hc]
    exact ih acc hacc

theorem mergeFold_length_le (cd : List String) (cands : List DomainRecord) :
    ∀ acc : List DomainRecord,
      (cands.foldl (mergeStep cd) acc).length ≤ max acc.length MAX_RECENT_DOMAINS := by
  induction cands with
  | nil => intro acc; simp [Nat.le_max_left]
  | cons c t ih =>
    intro acc
    simp only [List.foldl_cons]
    by_cases hc : (!hasDomain cd c.domain && decide (acc.length < MAX_RECENT_DOMAINS)) = true
    · rw [mergeStep_eq_append hc]
      have hlt : acc.length < MAX_RECENT_DOMAINS := by
        have := (Bool.and_eq_true _ _).mp hc
        simpa using this.2
      have := ih (acc ++ [c])
      simp only [List.length_append, List.length_cons, List.length_nil] at this
      omega
    · rw [mergeStep_eq_skip hc]; exact ih acc

theorem mergeFold_under_capacity (cd : List String) (cands : List DomainRecord) :
    ∀ acc : List DomainRecord,
      (cands.foldl (mergeStep cd) acc).length < MAX_RECENT_DOMAINS →
      ∀ c ∈ cands, hasDomain cd c.domain = true ∨ c ∈ cands.foldl (mergeStep cd) acc := by
  induction cands with
  | nil => intro acc _ c hc; cases hc
  | cons c t ih =>
    intro acc hlen x hx
    simp only [List.foldl_cons] at hlen ⊢
    by_cases hc : (!hasDomain cd c.domain && decide (acc.length < MAX_RECENT_DOMAINS)) = true
    · rw [mergeStep_eq_append hc] at hlen ⊢
      rcases List.mem_cons.mp hx with rfl | hx
      · right
        obtain ⟨s, hs, -⟩ := mergeFold_spec cd t (acc ++ [x])
        rw [hs]
        exact List.mem_append_left _ (List.mem_append_right _ (List.mem_singleton.mpr rfl))
      · exact ih (acc ++ [c]) hlen x hx
    · rw [mergeStep_eq_skip hc] at hlen ⊢
      simp only [Bool.and_eq_true, decide_eq_true_eq, Bool.not_eq_true', not_and] at hc
      rcases List.mem_cons.mp hx with rfl | hx
      · by_cases hd : hasDomain cd x.domain = true
        · exact Or.inl hd
        · exfalso
          have hfull : MAX_RECENT_DOMAINS ≤ acc.length := by
            have := hc (by simpa using hd)
            omega
          rw [mergeFold_of_full cd t acc hfull] at hlen
          omega
      · exact ih acc hlen x hx

theorem mergeFold_all_present (cd : List String) (cands : List DomainRecord) :
    ∀ acc : List DomainRecord, (∀ c ∈ cands, hasDomain cd c.domain = true) →
      cands.foldl (mergeStep cd) acc = acc := by
  induction cands with
  | nil => intro acc _; rfl
  | cons c t ih =>
    intro acc hall
    have hc : ¬(!hasDomain cd c.domain && decide (acc.length < MAX_RECENT_DOMAINS)) = true := by
      simp only [Bool.and_eq_true, Bool.not_eq_true']
      rintro ⟨hfalse, -⟩
      rw [hall c (List.mem_cons_self _ _)] at hfalse
      cases hfalse
    simp only [List.foldl_cons, mergeStep_eq_skip hc]
    exact ih acc (fun x hx => hall x (List.mem_cons_of_mem _ hx))

theorem mergeExternal_eq (cached cands : List DomainRecord) :
    mergeExternal cached cands = cands.foldl (mergeStep (domainsOf cached)) cached := rfl

/-! ## Lower-casing lemmas -/

theorem char_toLower_fix (c : Char) : c.toLower.toLower = c.toLower := by
  by_cases h : c.toNat ≥ 65 ∧ c.toNat ≤ 90
  · have h1 : c.toLower = Char.ofNat (c.toNat + 32) := by
      unfold Char.toLower
      rw [if_pos h]
    rw [h1]
    obtain ⟨ha, hb⟩ := h
    revert ha hb
    generalize c.toNat = n
    intro ha hb
    interval_cases n <;> decide
  · have h1 : c.toLower = c := by
      unfold Char.toLower
      rw [if_neg h]
    rw [h1]
    exact h1

theorem map_toLower_idem (l : List Char) :
    (l.map Char.toLower).map Char.toLower = l.map Char.toLower := by
  induction l with
  | nil => rfl
  | cons c t ih => simp only [List.map_cons, char_toLower_fix c, ih]

theorem lowerStr_idem (s : String) : lowerStr (lowerStr s) = lowerStr s := by
  show (⟨(s.data.map Char.toLower).map Char.toLower⟩ : String) =
    ⟨s.data.map Char.toLower⟩
  rw [map_toLower_idem]

theorem lowerStr_stripWww {h : String} (hfix : lowerStr h = h) :
    lowerStr (stripWww h) = stripWww h := by
  unfold stripWww
  split
  · have hd : h.data.map Char.toLower = h.data := congrArg String.data hfix
    show (⟨(h.data.drop 4).map Char.toLower⟩ : String) = ⟨h.data.drop 4⟩
    rw [List.map_drop, hd]
  · exact hfix

theorem extractDomain_via_rawHost {url d : String} (h : extractDomain url = some d) :
    ∃ raw, rawHost url = some raw ∧ d = stripWww (lowerStr raw) := by
  unfold extractDomain urlHostname at h
  cases hr : rawHost url with
  | none => rw [hr] at h; cases h
  | some raw =>
    rw [hr] at h
    simp only [Option.map_some', Option.some.injEq] at h
    exact ⟨raw, rfl, h.symm⟩

theorem extractDomain_lower {url d : String} (h : extractDomain url = some d) :
    lowerStr d = d := by
  obtain ⟨raw, -, rfl⟩ := extractDomain_via_rawHost h
  exact lowerStr_stripWww (lowerStr_idem raw)

theorem admitDomain_eq_some {url d : String} (h : admitDomain url = some d) :
    extractDomain url = some d ∧ d ≠ "" ∧ excludedDomain d = false := by
  unfold admitDomain at h
  split at h
  · cases h
  · rename_i d0 he
    by_cases h0 : d0 = ""
    · rw [if_pos h0] at h; cases h
    · rw [if_neg h0] at h
      by_cases hex : excludedDomain d0 = true
      · rw [if_pos hex] at h; cases h
      · rw [if_neg hex] at h
        cases h
        exact ⟨he, h0, by simpa using hex⟩

/-- Well-formedness of a single cache record: nonempty lower-case domain and
the canonical `https://` URL. -/
def GoodRec (r : DomainRecord) : Prop :=
  r.domain ≠ "" ∧ lowerStr r.domain = r.domain ∧ r.url = "https://" ++ r.domain

theorem goodRec_new {url d : String} (now : Nat) (h : admitDomain url = some d) :
    GoodRec ⟨d, "https://" ++ d, now⟩ :=
  ⟨(admitDomain_eq_some h).2.1, extractDomain_lower (admitDomain_eq_some h).1, rfl⟩

theorem goodRec_upsert {url : String} {now : Nat} {cache : List DomainRecord}
    (hc : ∀ r ∈ cache, GoodRec r) :
    ∀ r ∈ addToRecentDomains url now cache, GoodRec r := by
  cases hadm : admitDomain url with
  | none => rw [addToRecentDomains_eq_of_reject now cache hadm]; exact hc
  | some d =>
    rw [addToRecentDomains_eq_of_accept now cache hadm]
    intro r hr
    rcases List.mem_cons.mp (List.mem_of_mem_take hr) with rfl | hr'
    · exact goodRec_new now hadm
    · exact hc r (List.mem_filter.mp hr').1

/-! ## Branch equations of the history-map update -/

theorem updateMap_none {m : List DomainRecord} {it : HistoryItem}
    (h : admitDomain it.url = none) : updateMap m it = m := by
  simp [updateMap, h]

theorem updateMap_insert {m : List DomainRecord} {it : HistoryItem} {d : String}
    (h : admitDomain it.url = some d)
    (hf : m.find? (fun r => r.domain == d) = none) :
    updateMap m it = m ++ [⟨d, "https://" ++ d, visitTime it⟩] := by
  simp [updateMap, h, hf]

theorem updateMap_replace {m : List DomainRecord} {it : HistoryItem} {d : String}
    {ex : DomainRecord} (h : admitDomain it.url = some d)
    (hf : m.find? (fun r => r.domain == d) = some ex)
    (hlt : ex.timestamp < visitTime it) :
    updateMap m it =
      m.map (fun r => if r.domain == d then ⟨d, "https://" ++ d, visitTime it⟩ else r) := by
  simp [updateMap, h, hf, hlt]

theorem updateMap_keep {m : List DomainRecord} {it : HistoryItem} {d : String}
    {ex : DomainRecord} (h : admitDomain it.url = some d)
    (hf : m.find? (fun r => r.domain == d) = some ex)
    (hge : ¬ex.timestamp < visitTime it) :
    updateMap m it = m := by
  simp [updateMap, h, hf, hge]

theorem goodRec_updateMap {m : List DomainRecord} {it : HistoryItem}
    (hm : ∀ r ∈ m, GoodRec r) : ∀ r ∈ updateMap m it, GoodRec r := by
  cases hadm : admitDomain it.url with
  | none => rw [updateMap_none hadm]; exact hm
  | some d =>
    cases hfind : m.find? (fun r => r.domain == d) with
    | none =>
      rw [updateMap_insert hadm hfind]
      intro r hr
      rcases List.mem_append.mp hr with hr | hr
      · exact hm r hr
      · rw [List.mem_singleton.mp hr]
        exact goodRec_new (visitTime it) hadm
    | some ex =>
      by_cases hlt : ex.timestamp < visitTime it
      · rw [updateMap_replace hadm hfind hlt]
        intro r hr
        obtain ⟨r0, hr0, rfl⟩ := List.mem_map.mp hr
        by_cases hdom : (r0.domain == d) = true
        · simp only [hdom, if_true]
          exact goodRec_new (visitTime it) hadm
        · simp only [Bool.not_eq_true] at hdom
          simp only [hdom, Bool.false_eq_true, if_false]
          exact hm r0 hr0
      · rw [updateMap_keep hadm hfind hlt]; exact hm

theorem goodRec_reduce_aux (items : List HistoryItem) :
    ∀ m : List DomainRecord, (∀ r ∈ m, GoodRec r) →
      ∀ r ∈ items.foldl updateMap m, GoodRec r := by
  induction items with
  | nil => intro m hm; exact hm
  | cons it t ih => intro m hm; exact ih _ (goodRec_updateMap hm)

theorem goodRec_reduce (items : List HistoryItem) :
    ∀ r ∈ reduceHistory items, GoodRec r :=
  goodRec_reduce_aux items [] (by simp)

/-! ## The sort is a permutation and is ordered -/

theorem insertDesc_perm (x : DomainRecord) (l : List DomainRecord) :
    (insertDesc x l).Perm (x :: l) := by
  induction l with
  | nil => exact List.Perm.refl _
  | cons y ys ih =>
    unfold insertDesc
    split
    · exact List.Perm.refl _
    · exact (ih.cons y).trans (List.Perm.swap x y ys)

theorem sortDescAux_perm (l : List DomainRecord) :
    ∀ acc : List DomainRecord,
      (l.foldl (fun a x => insertDesc x a) acc).Perm (acc ++ l) := by
  induction l with
  | nil => intro acc; simp
  | cons x t ih =>
    intro acc
    simp only [List.foldl_cons]
    refine (ih (insertDesc x acc)).trans ?_
    refine ((insertDesc_perm x acc).append_right t).trans ?_
    exact List.perm_middle.symm

theorem sortDesc_perm (l : List DomainRecord) : (sortDesc l).Perm l := by
  simpa using sortDescAux_perm l []

theorem insertDesc_sorted {l : List DomainRecord}
    (hl : l.Pairwise (fun a b => b.timestamp ≤ a.timestamp)) (x : DomainRecord) :
    (insertDesc x l).Pairwise (fun a b => b.timestamp ≤ a.timestamp) := by
  induction l with
  | nil => simp [insertDesc]
  | cons y ys ih =>
    rw [List.pairwise_cons] at hl
    obtain ⟨hy, hys⟩ := hl
    unfold insertDesc
    split
    · rename_i hlt
      rw [List.pairwise_cons]
      refine ⟨?_, List.pairwise_cons.mpr ⟨hy, hys⟩⟩
      intro b hb
      rcases List.mem_cons.mp hb with rfl | hb
      · omega
      · have := hy b hb; omega
    · rename_i hnlt
      rw [List.pairwise_cons]
      refine ⟨?_, ih hys⟩
      intro b hb
      rcases List.mem_cons.mp ((insertDesc_perm x ys).mem_iff.mp hb) with rfl | hb'
      · omega
      · exact hy b hb'

theorem sortDescAux_sorted (l : List DomainRecord) :
    ∀ acc : List DomainRecord,
      acc.Pairwise (fun a b => b.timestamp ≤ a.timestamp) →
      (l.foldl (fun a x => insertDesc x a) acc).Pairwise
        (fun a b => b.timestamp ≤ a.timestamp) := by
  induction l with
  | nil => intro acc h; exact h
  | cons x t ih =>
    intro acc h
    exact ih (insertDesc x acc) (insertDesc_sorted h x)

theorem sortDesc_sorted (l : List DomainRecord) :
    (sortDesc l).Pairwise (fun a b => b.timestamp ≤ a.timestamp) :=
  sortDescAux_sorted l [] (List.Pairwise.nil)

theorem goodRec_candidates (items : List HistoryItem) :
    ∀ r ∈ historyCandidates items, GoodRec r := by
  intro r hr
  exact goodRec_reduce items r
    ((sortDesc_perm _).mem_iff.mp (List.mem_of_mem_take hr))

theorem goodRec_merge {cached cands : List DomainRecord}
    (hc : ∀ r ∈ cached, GoodRec r) (hk : ∀ r ∈ cands, GoodRec r) :
    ∀ r ∈ mergeExternal cached cands, GoodRec r := by
  obtain ⟨s, hs, hmem⟩ := mergeFold_spec (domainsOf cached) cands cached
  rw [mergeExternal_eq, hs]
  intro r hr
  rcases List.mem_append.mp hr with hr | hr
  · exact hc r hr
  · exact hk r (hmem r hr).1

theorem goodRec_import {items : List HistoryItem} {cached : List DomainRecord}
    (hc : ∀ r ∈ cached, GoodRec r) :
    ∀ r ∈ importFromHistory items cached, GoodRec r := by
  unfold importFromHistory
  split
  · exact hc
  · split
    · exact hc
    · exact goodRec_merge hc (goodRec_candidates items)

theorem goodRec_applyOps_aux (ops : List CacheOp) :
    ∀ cache : List DomainRecord, (∀ r ∈ cache, GoodRec r) →
      ∀ r ∈ ops.foldl applyOp cache, GoodRec r := by
  induction ops with
  | nil => intro cache hc; exact hc
  | cons op t ih =>
    intro cache hc
    refine ih _ ?_
    cases op with
    | click url now => exact goodRec_upsert hc
    | importHist items => exact goodRec_import hc

theorem goodRec_applyOps (ops : List CacheOp) :
    ∀ r ∈ applyOps ops, GoodRec r :=
  goodRec_applyOps_aux ops [] (by simp)

/-! ## The reduction loop invariant -/

/-- Invariant of the reduction loop: after processing the items `p`, the map
`m` holds one record per admissible domain of `p`, canonically shaped, with
the greatest visit time seen for that domain. -/
def MapInv (p : List HistoryItem) (m : List DomainRecord) : Prop :=
  (domainsOf m).Nodup ∧
  (∀ r ∈ m, r.url = "https://" ++ r.domain ∧
    (∃ it ∈ p, admitDomain it.url = some r.domain ∧ visitTime it = r.timestamp) ∧
    (∀ it ∈ p, admitDomain it.url = some r.domain → visitTime it ≤ r.timestamp)) ∧
  (∀ it ∈ p, ∀ d, admitDomain it.url = some d → ∃ r ∈ m, r.domain = d)

theorem mapInv_nil : MapInv [] [] :=
  ⟨by simp [domainsOf], fun r hr => absurd hr (List.not_mem_nil r),
   fun it hit => absurd hit (List.not_mem_nil it)⟩

theorem mapInv_update {p : List HistoryItem} {m : List DomainRecord}
    (it : HistoryItem) (h : MapInv p m) : MapInv (p ++ [it]) (updateMap m it) := by
  obtain ⟨hnodup, hrec, hcover⟩ := h
  cases hadm : admitDomain it.url with
  | none =>
    rw [updateMap_none hadm]
    refine ⟨hnodup, ?_, ?_⟩
    · intro r hr
      obtain ⟨hurl, ⟨it0, hit0, hsome, hvt⟩, hmax⟩ := hrec r hr
      refine ⟨hurl, ⟨it0, List.mem_append_left _ hit0, hsome, hvt⟩, ?_⟩
      intro it1 hit1 hsome1
      rcases List.mem_append.mp hit1 with hit1 | hit1
      · exact hmax it1 hit1 hsome1
      · rw [List.mem_singleton.mp hit1, hadm] at hsome1
        cases hsome1
    · intro it1 hit1 d hd
      rcases List.mem_append.mp hit1 with hit1 | hit1
      · exact hcover it1 hit1 d hd
      · rw [List.mem_singleton.mp hit1, hadm] at hd
        cases hd
  | some d =>
    cases hfind : m.find? (fun r => r.domain == d) with
    | none =>
      rw [updateMap_insert hadm hfind]
      have hnotin : ∀ r ∈ m, r.domain ≠ d := by
        intro r hr
        have := List.find?_eq_none.mp hfind r hr
        simpa using this
      refine ⟨?_, ?_, ?_⟩
      · simp only [domainsOf, List.map_append, List.map_cons, List.map_nil]
        rw [List.nodup_append]
        refine ⟨hnodup, List.nodup_singleton d, ?_⟩
        intro a ha hb
        rw [List.mem_singleton.mp hb] at ha
        obtain ⟨r, hr, hrd⟩ := List.mem_map.mp ha
        exact hnotin r hr hrd
      · intro r hr
        rcases List.mem_append.mp hr with hr | hr
        · obtain ⟨hurl, ⟨it0, hit0, hsome, hvt⟩, hmax⟩ := hrec r hr
          refine ⟨hurl, ⟨it0, List.mem_append_left _ hit0, hsome, hvt⟩, ?_⟩
          intro it1 hit1 hsome1
          rcases List.mem_append.mp hit1 with hit1 | hit1
          · exact hmax it1 hit1 hsome1
          · rw [List.mem_singleton.mp hit1, hadm] at hsome1
            injection hsome1 with hdr
            exact absurd hdr.symm (hnotin r hr)
        · rw [List.mem_singleton.mp hr]
          refine ⟨rfl, ⟨it, List.mem_append_right _ (List.mem_singleton.mpr rfl),
            hadm, rfl⟩, ?_⟩
          intro it1 hit1 hsome1
          rcases List.mem_append.mp hit1 with hit1 | hit1
          · obtain ⟨r', hr', hd'⟩ := hcover it1 hit1 _ hsome1
            exact absurd hd' (hnotin r' hr')
          · rw [List.mem_singleton.mp hit1]
      · intro it1 hit1 d' hd'
        rcases List.mem_append.mp hit1 with hit1 | hit1
        · obtain ⟨r', hr', hdr⟩ := hcover it1 hit1 d' hd'
          exact ⟨r', List.mem_append_left _ hr', hdr⟩
        · rw [List.mem_singleton.mp hit1, hadm] at hd'
          injection hd' with hdd
          exact ⟨⟨d, "https://" ++ d, visitTime it⟩,
            List.mem_append_right _ (List.mem_singleton.mpr rfl), hdd⟩
    | some ex =>
      have hex_mem : ex ∈ m := List.mem_of_find?_eq_some hfind
      have hex_dom : ex.domain = d := by
        have := List.find?_some hfind
        simpa using this
      have huniq : ∀ r ∈ m, r.domain = d → r = ex := by
        intro r hr hrd
        exact List.inj_on_of_nodup_map
          (show (List.map (fun r => r.domain) m).Nodup from hnodup)
          hr hex_mem (by rw [hrd, hex_dom])
      by_cases hlt : ex.timestamp < visitTime it
      · rw [updateMap_replace hadm hfind hlt]
        have hfdom : ∀ r : DomainRecord,
            ((if r.domain == d then
              (⟨d, "https://" ++ d, visitTime it⟩ : DomainRecord) else r)).domain =
              r.domain := by
          intro r
          by_cases hrd : (r.domain == d) = true
          · rw [if_pos hrd]
            exact (beq_iff_eq.mp hrd).symm
          · rw [if_neg hrd]
        have hdomeq : domainsOf (m.map (fun r =>
            if r.domain == d then (⟨d, "https://" ++ d, visitTime it⟩ : DomainRecord)
            else r)) = domainsOf m := by
          simp only [domainsOf, List.map_map, Function.comp]
          congr 1
          funext r
          exact hfdom r
        refine ⟨by rw [hdomeq]; exact hnodup, ?_, ?_⟩
        · intro r' hr'
          obtain ⟨r0, hr0, rfl⟩ := List.mem_map.mp hr'
          by_cases hrd : (r0.domain == d) = true
          · have hr0ex : r0 = ex := huniq r0 hr0 (beq_iff_eq.mp hrd)
            rw [if_pos hrd]
            refine ⟨rfl, ⟨it, List.mem_append_right _ (List.mem_singleton.mpr rfl),
              hadm, rfl⟩, ?_⟩
            intro it1 hit1 hsome1
            rcases List.mem_append.mp hit1 with hit1 | hit1
            · obtain ⟨-, -, hmax⟩ := hrec ex hex_mem
              have hle := hmax it1 hit1 (by rw [hex_dom]; exact hsome1)
              show visitTime it1 ≤ visitTime it
              omega
            · rw [List.mem_singleton.mp hit1]
          · rw [if_neg hrd]
            obtain ⟨hurl, ⟨it0, hit0, hsome, hvt⟩, hmax⟩ := hrec r0 hr0
            refine ⟨hurl, ⟨it0, List.mem_append_left _ hit0, hsome, hvt⟩, ?_⟩
            intro it1 hit1 hsome1
            rcases List.mem_append.mp hit1 with hit1 | hit1
            · exact hmax it1 hit1 hsome1
            · rw [List.mem_singleton.mp hit1, hadm] at hsome1
              injection hsome1 with hdd
              rw [← hdd] at hrd
              simp at hrd
        · intro it1 hit1 d' hd'
          rcases List.mem_append.mp hit1 with hit1 | hit1
          · obtain ⟨r', hr', hdr⟩ := hcover it1 hit1 d' hd'
            refine ⟨_, List.mem_map_of_mem _ hr', ?_⟩
            rw [hfdom r']
            exact hdr
          · rw [List.mem_singleton.mp hit1, hadm] at hd'
            injection hd' with hdd
            refine ⟨_, List.mem_map_of_mem _ hex_mem, ?_⟩
            rw [hfdom ex, hex_dom]
            exact hdd
      · rw [updateMap_keep hadm hfind hlt]
        refine ⟨hnodup, ?_, ?_⟩
        · intro r hr
          obtain ⟨hurl, ⟨it0, hit0, hsome, hvt⟩, hmax⟩ := hrec r hr
          refine ⟨hurl, ⟨it0, List.mem_append_left _ hit0, hsome, hvt⟩, ?_⟩
          intro it1 hit1 hsome1
          rcases List.mem_append.mp hit1 with hit1 | hit1
          · exact hmax it1 hit1 hsome1
          · rw [List.mem_singleton.mp hit1, hadm] at hsome1
            injection hsome1 with hdd
            have hrex : r = ex := huniq r hr hdd.symm
            rw [List.mem_singleton.mp hit1, hrex]
            omega
        · intro it1 hit1 d' hd'
          rcases List.mem_append.mp hit1 with hit1 | hit1
          · exact hcover it1 hit1 d' hd'
          · rw [List.mem_singleton.mp hit1, hadm] at hd'
            injection hd' with hdd
            exact ⟨ex, hex_mem, hex_dom.trans hdd⟩

theorem mapInv_foldl (items : List HistoryItem) :
    ∀ (p : List HistoryItem) (m : List DomainRecord), MapInv p m →
      MapInv (p ++ items) (items.foldl updateMap m) := by
  induction items with
  | nil => intro p m h; simpa using h
  | cons it t ih =>
    intro p m h
    have h3 := ih (p ++ [it]) (updateMap m it) (mapInv_update it h)
    simpa [List.append_assoc] using h3

theorem mapInv_reduce (items : List HistoryItem) :
    MapInv items (reduceHistory items) := by
  have := mapInv_foldl items [] [] mapInv_nil
  simpa [reduceHistory] using this

/-! ## Claim theorems -/

/-- C1: for every sequence of upsert calls (`addToRecentDomains`) applied to
the initially empty cache, the resulting cache has length at most 5 and
contains no two records with the same domain. -/
theorem claim1_upsert_seq_bounded_and_dedup (ops : List (String × Nat)) :
    (applyUpserts ops).length ≤ 5 ∧
      (applyUpserts ops).Pairwise (fun a b => a.domain ≠ b.domain) := by
  have h := cacheInv_foldl_upserts ops [] cacheInv_nil
  refine ⟨h.1, ?_⟩
  have h2 := h.2
  simp only [domainsOf] at h2
  rw [List.Nodup, List.pairwise_map] at h2
  exact h2

/-- C2: `mergeExternal` never reorders or removes existing cache records: the
cache is an unchanged prefix of the result; every appended record is a
candidate whose domain was absent from the cache; appending happens only
while the length is below 5 (the result never exceeds `max cached.length 5`,
and when the result is still under capacity every candidate domain has been
taken in); and a cache already holding 5 records is left unchanged by any
candidate set. -/
theorem claim2_mergeExternal_frame (cached cands : List DomainRecord) :
    (∃ s, mergeExternal cached cands = cached ++ s ∧
        ∀ r ∈ s, r ∈ cands ∧ hasDomain (domainsOf cached) r.domain = false) ∧
      (mergeExternal cached cands).length ≤ max cached.length 5 ∧
      ((mergeExternal cached cands).length < 5 →
        ∀ c ∈ cands, c.domain ∈ domainsOf (mergeExternal cached cands)) ∧
      (5 ≤ cached.length → mergeExternal cached cands = cached) := by
  rw [mergeExternal_eq]
  refine ⟨mergeFold_spec _ cands cached, mergeFold_length_le _ cands cached, ?_, ?_⟩
  · intro hlen c hc
    rcases mergeFold_under_capacity (domainsOf cached) cands cached hlen c hc with hd | hmem
    · rw [hasDomain_iff] at hd
      obtain ⟨s, hs, -⟩ := mergeFold_spec (domainsOf cached) cands cached
      rw [hs]
      simp only [domainsOf, List.map_append, List.mem_append]
      exact Or.inl hd
    · exact List.mem_map.mpr ⟨c, hmem, rfl⟩
  · intro h5
    exact mergeFold_of_full _ cands cached h5

/-- Witness for C2 at a full cache: merging a fresh candidate into a cache of
5 records changes nothing. -/
theorem claim2_mergeExternal_frame_witness :
    mergeExternal
      [⟨"a.com", "https://a.com", 5⟩, ⟨"b.com", "https://b.com", 4⟩,
       ⟨"c.com", "https://c.com", 3⟩, ⟨"d.com", "https://d.com", 2⟩,
       ⟨"e.com", "https://e.com", 1⟩]
      [⟨"f.com", "https://f.com", 9⟩] =
      [⟨"a.com", "https://a.com", 5⟩, ⟨"b.com", "https://b.com", 4⟩,
       ⟨"c.com", "https://c.com", 3⟩, ⟨"d.com", "https://d.com", 2⟩,
       ⟨"e.com", "https://e.com", 1⟩] :=
  (claim2_mergeExternal_frame
    [⟨"a.com", "https://a.com", 5⟩, ⟨"b.com", "https://b.com", 4⟩,
     ⟨"c.com", "https://c.com", 3⟩, ⟨"d.com", "https://d.com", 2⟩,
     ⟨"e.com", "https://e.com", 1⟩]
    [⟨"f.com", "https://f.com", 9⟩]).2.2.2 (by decide)

/-- C3 refuted as stated: `https://chrome.com` normalizes to the domain
`chrome.com` for both upsert calls, yet the internal-origin exclusion makes
both calls no-ops, so the empty cache stays empty and no record for that
domain sits at position 0. -/
theorem claim3_counterexample :
    extractDomain "https://chrome.com" = some "chrome.com" ∧
    addToRecentDomains "https://chrome.com" 2
      (addToRecentDomains "https://chrome.com" 1 []) = [] := by decide

/-- C3 amended: for every cache state and URLs that normalize to the same
admissible (nonempty, not internally excluded) domain, two successive upserts
leave exactly one record for that domain — at position 0, with the second
timestamp — and the remaining records are a subsequence of the original
cache, so all other records keep their relative order. -/
theorem claim3_upsert_promote (cache : List DomainRecord) (url url' : String)
    (t t' : Nat) (d : String) (h1 : admitDomain url = some d)
    (h2 : admitDomain url' = some d) :
    ∃ tl, addToRecentDomains url' t' (addToRecentDomains url t cache) =
        ⟨d, "https://" ++ d, t'⟩ :: tl ∧
      tl.countP (fun r => r.domain == d) = 0 ∧
      tl.Sublist cache := by
  rw [addToRecentDomains_eq_of_accept t cache h1,
    addToRecentDomains_eq_of_accept t' _ h2]
  set F := cache.filter (fun r => r.domain != d) with hF
  have htake : ((⟨d, "https://" ++ d, t⟩ : DomainRecord) :: F).take MAX_RECENT_DOMAINS =
      (⟨d, "https://" ++ d, t⟩ : DomainRecord) :: F.take 4 := rfl
  rw [htake]
  have hfilter : ((⟨d, "https://" ++ d, t⟩ : DomainRecord) :: F.take 4).filter
      (fun r => r.domain != d) = F.take 4 := by
    rw [List.filter_cons]
    simp only [bne_self_eq_false, if_false]
    apply List.filter_eq_self.mpr
    intro r hr
    have hrF : r ∈ F := List.mem_of_mem_take hr
    rw [hF] at hrF
    exact (List.mem_filter.mp hrF).2
  rw [hfilter]
  refine ⟨(F.take 4).take 4, ?_, ?_, ?_⟩
  · rfl
  · rw [List.countP_eq_zero]
    intro r hr
    have hrF : r ∈ F := List.mem_of_mem_take (List.mem_of_mem_take hr)
    rw [hF] at hrF
    have := (List.mem_filter.mp hrF).2
    simpa using this
  · exact ((List.take_sublist _ _).trans (List.take_sublist _ _)).trans
      (hF ▸ List.filter_sublist cache)

/-- Witness for C3 (amended): `https://a.com` and `https://www.a.com` both
normalize to `a.com`; two upserts on a one-record cache leave `a.com` at
position 0 with the second timestamp. -/
theorem claim3_upsert_promote_witness :
    ∃ tl, addToRecentDomains "https://www.a.com" 2
        (addToRecentDomains "https://a.com" 1 [⟨"b.com", "https://b.com", 0⟩]) =
        ⟨"a.com", "https://a.com", 2⟩ :: tl ∧
      tl.countP (fun r => r.domain == "a.com") = 0 ∧
      tl.Sublist [⟨"b.com", "https://b.com", 0⟩] :=
  claim3_upsert_promote [⟨"b.com", "https://b.com", 0⟩] "https://a.com"
    "https://www.a.com" 1 2 "a.com" (by decide) (by decide)

/-- C4: for every URL the (spec-modelled) browser parser accepts,
`extractDomain` returns the raw host lower-cased with a single leading
`www.` removed, and `none` for unparsable input; in particular
`extractDomain "https://www.Example.COM/path" = some "example.com"` and
`extractDomain "not a url" = none`. -/
theorem claim4_extractDomain_spec :
    (∀ url, rawHost url = none → extractDomain url = none) ∧
    (∀ url h, rawHost url = some h →
      extractDomain url = some (stripWww (lowerStr h))) ∧
    extractDomain "https://www.Example.COM/path" = some "example.com" ∧
    extractDomain "not a url" = none := by
  refine ⟨?_, ?_, by decide, by decide⟩
  · intro url h
    simp [extractDomain, urlHostname, h]
  · intro url h hh
    simp [extractDomain, urlHostname, hh]

/-- Witness for C4: the host of `https://www.Example.COM/path` is
`www.Example.COM`, and the two general clauses instantiate to the two
documented examples. -/
theorem claim4_extractDomain_spec_witness :
    extractDomain "https://www.Example.COM/path" =
      some (stripWww (lowerStr "www.Example.COM")) ∧
    extractDomain "not a url" = none :=
  ⟨claim4_extractDomain_spec.2.1 "https://www.Example.COM/path"
    "www.Example.COM" (by decide),
   claim4_extractDomain_spec.1 "not a url" (by decide)⟩

/-- C5: `mergeExternal` is idempotent: merging the same candidates a second
time produces no further change. -/
theorem claim5_mergeExternal_idempotent (cached cands : List DomainRecord) :
    mergeExternal (mergeExternal cached cands) cands = mergeExternal cached cands := by
  by_cases hlen : (mergeExternal cached cands).length < MAX_RECENT_DOMAINS
  · rw [mergeExternal_eq]
    apply mergeFold_all_present
    intro c hc
    rw [mergeExternal_eq] at hlen
    rcases mergeFold_under_capacity (domainsOf cached) cands cached hlen c hc with hd | hmem
    · rw [hasDomain_iff] at hd ⊢
      rw [mergeExternal_eq]
      obtain ⟨s, hs, -⟩ := mergeFold_spec (domainsOf cached) cands cached
      rw [hs]
      simp only [domainsOf, List.map_append, List.mem_append]
      exact Or.inl (by simpa [domainsOf] using hd)
    · rw [hasDomain_iff]
      rw [← mergeExternal_eq] at hmem
      exact List.mem_map.mpr ⟨c, hmem, rfl⟩
  · rw [mergeExternal_eq]
    exact mergeFold_of_full _ cands _ (Nat.le_of_not_lt hlen)

/-- C6: an upsert whose URL yields no domain, or an internally excluded
domain, is a complete no-op: `upsertResult` is `none` (nothing recomputed,
nothing passed to `saveRecentDomains`) and the cache state is unchanged. -/
theorem claim6_excluded_upsert_noop (url : String) (now : Nat)
    (cache : List DomainRecord)
    (h : extractDomain url = none ∨
      ∃ d, extractDomain url = some d ∧ excludedDomain d = true) :
    upsertResult url now cache = none ∧
      addToRecentDomains url now cache = cache := by
  have hadm : admitDomain url = none := by
    rcases h with h | ⟨d, hd, hex⟩
    · simp [admitDomain, h]
    · by_cases hd0 : d = ""
      · simp [admitDomain, hd, hd0]
      · simp [admitDomain, hd, hd0, hex]
  exact ⟨by simp [upsertResult, hadm],
    addToRecentDomains_eq_of_reject now cache hadm⟩

/-- Witness for C6: `https://chrome.com` is excluded; an upsert at time 7
leaves a one-record cache untouched and persists nothing. -/
theorem claim6_excluded_upsert_noop_witness :
    upsertResult "https://chrome.com" 7 [⟨"a.com", "https://a.com", 1⟩] = none ∧
      addToRecentDomains "https://chrome.com" 7 [⟨"a.com", "https://a.com", 1⟩] =
        [⟨"a.com", "https://a.com", 1⟩] :=
  claim6_excluded_upsert_noop "https://chrome.com" 7
    [⟨"a.com", "https://a.com", 1⟩]
    (Or.inr ⟨"chrome.com", by decide, by decide⟩)

/-- C8 refuted as stated: the stored string `42` is not a valid serialized
record sequence, yet `getRecentDomains` returns the parsed number itself
rather than the empty sequence — the loader validates only parsability, not
shape. -/
theorem claim8_counterexample :
    isRecordSeqJson (Json.jnum 42) = false ∧
      getRecentDomains (StoredSlot.parsed (Json.jnum 42)) = Json.jnum 42 ∧
      getRecentDomains (StoredSlot.parsed (Json.jnum 42)) ≠ Json.jarr [] := by
  refine ⟨rfl, rfl, ?_⟩
  intro h
  cases h

/-- C8 amended: a stored recent-domains value that is absent or on which
`JSON.parse` throws loads as the empty sequence; a value that parses is
returned exactly as parsed, with no shape validation. -/
theorem claim8_load_fallback (s : StoredSlot) :
    ((s = StoredSlot.absent ∨ s = StoredSlot.unparsable) →
      getRecentDomains s = Json.jarr []) ∧
    (∀ j, s = StoredSlot.parsed j → getRecentDomains s = j) := by
  cases s with
  | absent => exact ⟨fun _ => rfl, fun j h => by cases h⟩
  | unparsable => exact ⟨fun _ => rfl, fun j h => by cases h⟩
  | parsed j =>
    refine ⟨fun h => ?_, fun j' h => ?_⟩
    · rcases h with h | h <;> cases h
    · cases h ; rfl

/-- Witness for C8 (amended): an unparsable slot loads as the empty
sequence. -/
theorem claim8_load_fallback_witness :
    getRecentDomains StoredSlot.unparsable = Json.jarr [] :=
  (claim8_load_fallback StoredSlot.unparsable).1 (Or.inr rfl)

/-- C7 refuted as stated: the source strips only a single leading `www.`, so
clicking `https://www.www.x.com/a` caches the domain `www.x.com`, whose first
four characters are `www.` — a reachable cache record whose domain has a
leading `www.`. -/
theorem claim7_counterexample :
    applyOps [CacheOp.click "https://www.www.x.com/a" 1] =
      [⟨"www.x.com", "https://www.x.com", 1⟩] ∧
    "www.x.com".data.take 4 = ['w', 'w', 'w', '.'] := by decide

/-- C7 amended: every record ever present in the cache — after any sequence
of upserts and history imports over arbitrary input URLs — has a domain that
is non-empty and lower-case, and a url equal to `https://` concatenated with
that domain.  (The further clause of the claim, that the domain never has a
leading `www.`, is refuted by the single-strip counterexample.) -/
theorem claim7_records_wellformed (ops : List CacheOp) :
    ∀ r ∈ applyOps ops, r.domain ≠ "" ∧ lowerStr r.domain = r.domain ∧
      r.url = "https://" ++ r.domain :=
  fun r hr => goodRec_applyOps ops r hr

/-- Witness for C7 (amended): the record cached by one click on
`https://A.com` is well-formed. -/
theorem claim7_records_wellformed_witness :
    (⟨"a.com", "https://a.com", 1⟩ : DomainRecord).domain ≠ "" ∧
      lowerStr (⟨"a.com", "https://a.com", 1⟩ : DomainRecord).domain =
        (⟨"a.com", "https://a.com", 1⟩ : DomainRecord).domain ∧
      (⟨"a.com", "https://a.com", 1⟩ : DomainRecord).url =
        "https://" ++ (⟨"a.com", "https://a.com", 1⟩ : DomainRecord).domain :=
  claim7_records_wellformed [CacheOp.click "https://A.com" 1]
    ⟨"a.com", "https://a.com", 1⟩ (by decide)

/-- C9: the importer reduction is correct: the reduced map has one record per
distinct admissible domain of the raw items (inadmissible entries — no
domain, empty domain, internal exclusion — contribute nothing), each record
carries the canonical URL and the greatest visit timestamp seen for its
domain, and the candidate set passed to the merge is ordered by timestamp
descending, still deduplicated, and drawn from the reduction. -/
theorem claim9_history_reduction (items : List HistoryItem) :
    (domainsOf (reduceHistory items)).Nodup ∧
    (∀ d, (∃ r ∈ reduceHistory items, r.domain = d) ↔
      (∃ it ∈ items, admitDomain it.url = some d)) ∧
    (∀ r ∈ reduceHistory items,
      r.url = "https://" ++ r.domain ∧
      (∃ it ∈ items, admitDomain it.url = some r.domain ∧ visitTime it = r.timestamp) ∧
      (∀ it ∈ items, admitDomain it.url = some r.domain → visitTime it ≤ r.timestamp)) ∧
    (historyCandidates items).Pairwise (fun a b => b.timestamp ≤ a.timestamp) ∧
    (domainsOf (historyCandidates items)).Nodup ∧
    (∀ r ∈ historyCandidates items, r ∈ reduceHistory items) := by
  obtain ⟨hnodup, hrec, hcover⟩ := mapInv_reduce items
  refine ⟨hnodup, ?_, hrec, ?_, ?_, ?_⟩
  · intro d
    constructor
    · rintro ⟨r, hr, rfl⟩
      obtain ⟨-, ⟨it0, hit0, hsome, -⟩, -⟩ := hrec r hr
      exact ⟨it0, hit0, hsome⟩
    · rintro ⟨it0, hit0, hsome⟩
      exact hcover it0 hit0 d hsome
  · exact List.Pairwise.sublist (List.take_sublist _ _) (sortDesc_sorted _)
  · have hperm : ((sortDesc (reduceHistory items)).map (fun r => r.domain)).Perm
        ((reduceHistory items).map (fun r => r.domain)) := (sortDesc_perm _).map _
    have hnodup2 : ((sortDesc (reduceHistory items)).map (fun r => r.domain)).Nodup :=
      hperm.nodup_iff.mpr hnodup
    show (domainsOf ((sortDesc (reduceHistory items)).take MAX_RECENT_DOMAINS)).Nodup
    simp only [domainsOf]
    exact ((List.take_sublist _ _).map _).nodup hnodup2
  · intro r hr
    exact (sortDesc_perm _).mem_iff.mp (List.mem_of_mem_take hr)

/-- Witness for C9: importing visits to `b.com` and `www.A.com` yields a
reduced record for the domain `a.com`. -/
theorem claim9_history_reduction_witness :
    ∃ r ∈ reduceHistory
        [⟨"https://b.com", some 90⟩, ⟨"https://www.A.com/x", some 100⟩],
      r.domain = "a.com" :=
  ((claim9_history_reduction
      [⟨"https://b.com", some 90⟩, ⟨"https://www.A.com/x", some 100⟩]).2.1
    "a.com").mpr ⟨⟨"https://www.A.com/x", some 100⟩, by decide, by decide⟩

/-- C10: a raw history entry whose visit time is absent is recorded with
timestamp 0 (and `0` stays `0`); a domain that also has a positively
timestamped entry never retains timestamp 0 after reduction; and in the
sorted candidate list every record after a zero-timestamp record is itself
zero — zero-timestamp entries sort after all positively timestamped ones. -/
theorem claim10_absent_visit_time (items : List HistoryItem) :
    (∀ it : HistoryItem, it.lastVisitTime = none → visitTime it = 0) ∧
    (∀ r ∈ reduceHistory items,
      (∃ it ∈ items, admitDomain it.url = some r.domain ∧ 0 < visitTime it) →
      0 < r.timestamp) ∧
    (∀ pre x suf, historyCandidates items = pre ++ x :: suf →
      x.timestamp = 0 → ∀ y ∈ suf, y.timestamp = 0) := by
  obtain ⟨-, hrec, -⟩ := mapInv_reduce items
  refine ⟨?_, ?_, ?_⟩
  · intro it h
    simp [visitTime, h]
  · rintro r hr ⟨it0, hit0, hsome, hpos⟩
    obtain ⟨-, -, hmax⟩ := hrec r hr
    have := hmax it0 hit0 hsome
    omega
  · intro pre x suf heq hx y hy
    have hsorted : (historyCandidates items).Pairwise
        (fun a b => b.timestamp ≤ a.timestamp) :=
      List.Pairwise.sublist (List.take_sublist _ _)
        (sortDesc_sorted (reduceHistory items))
    rw [heq] at hsorted
    have hxs := List.Pairwise.sublist (List.sublist_append_right pre (x :: suf)) hsorted
    have := (List.pairwise_cons.mp hxs).1 y hy
    omega

/-- Witness for C10: an absent-visit-time entry for `a.com` followed by a
visit at time 7 leaves the reduced record with the positive timestamp 7. -/
theorem claim10_absent_visit_time_witness :
    0 < (⟨"a.com", "https://a.com", 7⟩ : DomainRecord).timestamp :=
  (claim10_absent_visit_time
      [⟨"https://a.com", none⟩, ⟨"https://a.com/x", some 7⟩]).2.1
    ⟨"a.com", "https://a.com", 7⟩ (by decide)
    ⟨⟨"https://a.com/x", some 7⟩, by decide, by decide, by decide⟩

end NewTab
